import Mathlib

/-!
Shallow embedding of the Book CSV Editor engine (src/App.js): the edit-tracking
data model, the filter/sort/paginate pipeline, the pager arithmetic, and the
CSV encode/decode round trip, together with proofs settling the specification
claims about them.

JavaScript machine values are modelled by `Value` (all numbers occurring in the
program are integral); `String(v)` coercion by `stringify`; the `edits` ES Map
by an association list with JS `Map.set`/`Map.delete`/`Map.has` semantics.
-/

namespace BookEditor

/-- A JS value flowing through a book row: a string, a number (all numbers in
this program are integers), or `undefined`. -/
inductive Value where
  | str (s : String)
  | int (n : Int)
  | undef
deriving DecidableEq

/-- JS `String(value)` coercion. -/
def stringify : Value → String
  | .str s => s
  | .int n => toString n
  | .undef => "undefined"

/-- The object keys of a book row, in insertion order: the internal `id`
followed by the five fixed columns. -/
inductive Col where
  | id | Title | Author | Genre | PublishedYear | ISBN
deriving DecidableEq

/-- One row of the table (`{id, Title, Author, Genre, PublishedYear, ISBN}`). -/
structure Book where
  id : Value
  Title : Value
  Author : Value
  Genre : Value
  PublishedYear : Value
  ISBN : Value
deriving DecidableEq

def Book.get (b : Book) : Col → Value
  | .id => b.id
  | .Title => b.Title
  | .Author => b.Author
  | .Genre => b.Genre
  | .PublishedYear => b.PublishedYear
  | .ISBN => b.ISBN

def Book.set (b : Book) : Col → Value → Book
  | .id, v => { b with id := v }
  | .Title, v => { b with Title := v }
  | .Author, v => { b with Author := v }
  | .Genre, v => { b with Genre := v }
  | .PublishedYear, v => { b with PublishedYear := v }
  | .ISBN, v => { b with ISBN := v }

/-- `const columns = ['Title', 'Author', 'Genre', 'PublishedYear', 'ISBN']`. -/
def columns : List Col := [.Title, .Author, .Genre, .PublishedYear, .ISBN]

/-- `Object.keys(row)` for a fully-constructed row object, in insertion
order. -/
def jsKeys : List Col := [.id, .Title, .Author, .Genre, .PublishedYear, .ISBN]

/-- `Object.values(row)` for a fully-constructed row object. -/
def jsValues (b : Book) : List Value := jsKeys.map b.get

/-- A row all of whose properties read as `undefined` (also stands for a hole
of a sparse JS array). -/
def undefBook : Book := ⟨.undef, .undef, .undef, .undef, .undef, .undef⟩

/-! ## JS primitive semantics -/

/-- `Number(s)` restricted to the integral strings occurring in this program:
surrounding whitespace is trimmed, the empty remainder is `0`, an optional
sign followed by digits is that integer, anything else is NaN (`none`). -/
def jsNumOfStr (s : List Char) : Option Int :=
  let t := (s.dropWhile Char.isWhitespace).reverse.dropWhile Char.isWhitespace |>.reverse
  match t with
  | [] => some 0
  | '-' :: rest =>
    if rest ≠ [] ∧ rest.all Char.isDigit then
      some (-(rest.foldl (fun a c => a * 10 + (c.toNat - '0'.toNat)) 0 : Int))
    else none
  | '+' :: rest =>
    if rest ≠ [] ∧ rest.all Char.isDigit then
      some (rest.foldl (fun a c => a * 10 + (c.toNat - '0'.toNat)) 0 : Int)
    else none
  | rest =>
    if rest.all Char.isDigit then
      some (rest.foldl (fun a c => a * 10 + (c.toNat - '0'.toNat)) 0 : Int)
    else none

/-- Numeric coercion of a value (`ToNumber`); `none` is NaN. -/
def jsToNum : Value → Option Int
  | .int n => some n
  | .str s => jsNumOfStr s.toList
  | .undef => none

/-- JS `a < b`: string comparison when both operands are strings, otherwise
numeric comparison after coercion, false when either side is NaN. -/
def jsLtB : Value → Value → Bool
  | .str s, .str t => decide (s < t)
  | a, b =>
    match jsToNum a, jsToNum b with
    | some m, some n => decide (m < n)
    | _, _ => false

/-- JS `a <= b`, same coercion rules as `jsLtB`. -/
def jsLeB : Value → Value → Bool
  | .str s, .str t => decide (s ≤ t)
  | a, b =>
    match jsToNum a, jsToNum b with
    | some m, some n => decide (m ≤ n)
    | _, _ => false

/-- JS `parseInt(s)`: skip leading whitespace, read an optional sign and a
longest digit run; NaN (`none`) when no digit follows. -/
def digitsVal (s : List Char) : Option Nat :=
  let ds := s.takeWhile Char.isDigit
  if ds = [] then none
  else some (ds.foldl (fun a c => a * 10 + (c.toNat - '0'.toNat)) 0)

def jsParseInt (s : List Char) : Option Int :=
  match s.dropWhile Char.isWhitespace with
  | '-' :: rest => (digitsVal rest).map (fun n => -(n : Int))
  | '+' :: rest => (digitsVal rest).map (fun n => (n : Int))
  | rest => (digitsVal rest).map (fun n => (n : Int))

/-- `s.toLowerCase()`: character-wise lowercasing (the data of this program
is ASCII). -/
def jsToLower (s : String) : String := ⟨s.data.map Char.toLower⟩

/-- Whether `pre` starts `l`. -/
def listStarts (pre l : List Char) : Bool :=
  match pre, l with
  | [], _ => true
  | _ :: _, [] => false
  | c :: cs, d :: ds => c = d && listStarts cs ds

/-- Whether `sub` occurs contiguously in `l`. -/
def listHas (sub l : List Char) : Bool :=
  match l with
  | [] => listStarts sub []
  | _ :: rest => listStarts sub l || listHas sub rest

/-- `s.includes(sub)` (substring test). -/
def strHas (hay sub : String) : Bool := listHas sub.toList hay.toList

/-! ## The edits Map (ES `Map` keyed by row index) -/

/-- `Map.set`: replace the binding of an existing key, else append. -/
def mapSet (k : Nat) (v : Book) : List (Nat × Book) → List (Nat × Book)
  | [] => [(k, v)]
  | (k', v') :: rest => if k' = k then (k, v) :: rest else (k', v') :: mapSet k v rest

/-- `Map.delete`. -/
def mapDelete (k : Nat) (m : List (Nat × Book)) : List (Nat × Book) :=
  m.filter (fun p => p.1 ≠ k)

/-- `Map.has`. -/
def mapHas (m : List (Nat × Book)) (k : Nat) : Bool :=
  m.any (fun p => p.1 = k)

/-! ## Session state and edit operations -/

/-- The engine-relevant component state of `App`. -/
structure EditorState where
  originalData : List Book
  currentData : List Book
  edits : List (Nat × Book)
  currentPage : Nat
deriving DecidableEq

/-- `edits.size`. -/
def modifiedCount (s : EditorState) : Nat := s.edits.length

/-- `{...maybeRow, [column]: value}`: spreading `undefined` yields an object
with only the supplied property. -/
def jsSpread (row : Option Book) (c : Col) (v : Value) : Book :=
  match row with
  | some b => b.set c v
  | none => undefBook.set c v

/-- `newData[rowIndex] = obj` on a copy of the array: in-range assignment
replaces the element; out-of-range assignment grows the array to
`rowIndex + 1`, the holes in between reading as `undefined`. -/
def jsArraySet (l : List Book) (i : Nat) (b : Book) : List Book :=
  if i < l.length then l.set i b
  else l ++ List.replicate (i - l.length) undefBook ++ [b]

/-- The `setCurrentData` updater of `handleCellEdit`:
`newData[rowIndex] = { ...newData[rowIndex], [column]: value }`. -/
def editRow (current : List Book) (i : Nat) (c : Col) (v : Value) : List Book :=
  jsArraySet current i (jsSpread current[i]? c v)

/-- The `setEdits` updater of `handleCellEdit`: recompute membership of the
row in the delta map by comparing every key of the updated row against the
original row. Reading a property of an `undefined` original row
(`originalRow[key]`) throws a TypeError, modelled as `.error`. -/
def editsUpd (original current : List Book) (edits : List (Nat × Book))
    (i : Nat) (c : Col) (v : Value) : Except String (List (Nat × Book)) :=
  match original[i]? with
  | none => .error "TypeError: cannot read properties of undefined"
  | some origRow =>
    let currentRow := jsSpread current[i]? c v
    let hasChanges := jsKeys.any fun k => stringify (currentRow.get k) != stringify (origRow.get k)
    .ok (if hasChanges then mapSet i currentRow edits else mapDelete i edits)

/-- `handleCellEdit(rowIndex, column, value)`: both state updaters run in one
step; a throw in either discards the whole update. -/
def handleCellEdit (s : EditorState) (i : Nat) (c : Col) (v : Value) :
    Except String EditorState :=
  match editsUpd s.originalData s.currentData s.edits i c v with
  | .error e => .error e
  | .ok e' => .ok { s with currentData := editRow s.currentData i c v, edits := e' }

/-- `handleResetEdits`: `setCurrentData([...originalData]); setEdits(new Map())`.
No other state is touched. -/
def handleResetEdits (s : EditorState) : EditorState :=
  { s with currentData := s.originalData, edits := [] }

/-- `isCellEdited(rowIndex, column)`:
`String(originalData[rowIndex]?.[column]) !== String(currentData[rowIndex]?.[column])`. -/
def isCellEdited (s : EditorState) (i : Nat) (c : Col) : Bool :=
  stringify ((s.originalData[i]?.map (Book.get · c)).getD .undef) !=
    stringify ((s.currentData[i]?.map (Book.get · c)).getD .undef)

/-- `isRowEdited(rowIndex)`: `edits.has(rowIndex)`. -/
def isRowEdited (s : EditorState) (i : Nat) : Bool := mapHas s.edits i

/-! ## Query pipeline stages (`filteredData`) -/

/-- Text filter stage: skipped for the empty query (falsy string), else keeps
rows where some `Object.values` entry, lowercased and stringified, contains
the lowercased query. -/
def textFilterStage (q : String) (l : List Book) : List Book :=
  if q = "" then l
  else
    let searchText := jsToLower q
    l.filter fun b => (jsValues b).any fun v => strHas (jsToLower (stringify v)) searchText

/-- Genre filter stage: skipped for the empty constraint, else keeps rows with
`book.Genre === filterGenre` (strict equality against the string). -/
def genreFilterStage (g : String) (l : List Book) : List Book :=
  if g = "" then l
  else l.filter fun b => b.Genre = Value.str g

/-- Year-range filter stage (unconditional):
`book.PublishedYear >= min && book.PublishedYear <= max`. -/
def yearFilterStage (mn mx : Int) (l : List Book) : List Book :=
  l.filter fun b => jsLeB (.int mn) b.PublishedYear && jsLeB b.PublishedYear (.int mx)

/-- `filtered.filter((_, index) => edits.has(index))`: the `index` parameter is
the position in the sequence being filtered. -/
def filterPos (p : Nat → Book → Bool) : Nat → List Book → List Book
  | _, [] => []
  | i, b :: rest => if p i b then b :: filterPos p (i + 1) rest else filterPos p (i + 1) rest

/-- Modified-only stage, applied when the flag is set. -/
def modifiedOnlyStage (edits : List (Nat × Book)) (l : List Book) : List Book :=
  filterPos (fun i _ => mapHas edits i) 0 l

/-- Stable insertion into a sorted accumulator: the new element goes before
the first strictly greater element, hence after every element it ties with. -/
def sIns (lt : α → α → Bool) (x : α) : List α → List α
  | [] => [x]
  | y :: ys => if lt x y then x :: y :: ys else y :: sIns lt x ys

/-- `Array.prototype.sort` with a comparator: stable (ES2019) and ordered by
the comparator, modelled as a stable insertion sort. -/
def stableSortBy (lt : α → α → Bool) (l : List α) : List α :=
  l.foldl (fun acc x => sIns lt x acc) []

/-- Sort stage: skipped when no key is set; the comparator returns negative
exactly when `aValue < bValue` ascending (resp. `bValue < aValue`
descending), so `a` strictly precedes `b` under just that condition. -/
def sortStage (key : Option Col) (asc : Bool) (l : List Book) : List Book :=
  match key with
  | none => l
  | some k =>
    stableSortBy (fun a b => if asc then jsLtB (a.get k) (b.get k) else jsLtB (b.get k) (a.get k)) l

/-- The full `filteredData` pipeline in source order. -/
def filteredData (q g : String) (mn mx : Int) (onlyEdited : Bool)
    (edits : List (Nat × Book)) (key : Option Col) (asc : Bool)
    (l : List Book) : List Book :=
  let f1 := textFilterStage q l
  let f2 := genreFilterStage g f1
  let f3 := yearFilterStage mn mx f2
  let f4 := if onlyEdited then modifiedOnlyStage edits f3 else f3
  sortStage key asc f4

/-! ## Pager -/

/-- `totalPages = Math.ceil(filteredData.length / pageSize)` (exact ceiling
division on the integral operands that occur). -/
def totalPages (view : List Book) (pageSize : Nat) : Nat :=
  (view.length + pageSize - 1) / pageSize

/-- `paginatedData = filteredData.slice(startIndex, startIndex + pageSize)`
with `startIndex = (currentPage - 1) * pageSize`; the page number is used as
supplied, without clamping. -/
def pageSlice (view : List Book) (pageSize page : Nat) : List Book :=
  (view.drop ((page - 1) * pageSize)).take pageSize

/-! ## Record codec

`booksToCSV` is the repository's encoder. The decoder is Papa Parse
(`Papa.parse` with `header: true, skipEmptyLines: true`) followed by the row
mapping of `handleFileUpload`; Papa Parse is an external library, so the parse
itself is modelled from the spec's dialect (§6: comma-delimited, `"` delimits
fields containing commas/quotes/newlines, `""` is an escaped quote, empty
lines skipped) as a three-mode character scanner. -/

/-- `String(value).replace(/"/g, '""')`. -/
def escQuotes : List Char → List Char
  | [] => []
  | c :: cs => if c = '"' then '"' :: '"' :: escQuotes cs else c :: escQuotes cs

/-- `array.join(sep)`. -/
def joinSep (sep : List Char) : List (List Char) → List Char
  | [] => []
  | [x] => x
  | x :: y :: rest => x ++ sep ++ joinSep sep (y :: rest)

/-- One encoded field: `"${String(value).replace(/"/g, '""')}"`. -/
def encodeField (v : Value) : List Char :=
  '"' :: (escQuotes (stringify v).toList ++ ['"'])

/-- One encoded data row: the five fixed columns, each quoted, joined by
commas (the internal id is not emitted). -/
def encodeRow (b : Book) : List Char :=
  joinSep [','] (columns.map fun c => encodeField (b.get c))

/-- The unquoted header row `headers.join(',')`. -/
def headerChars : List Char := "Title,Author,Genre,PublishedYear,ISBN".toList

/-- `booksToCSV`: header row then one row per book, joined by newlines. -/
def booksToCSV (books : List Book) : List Char :=
  joinSep ['\n'] (headerChars :: books.map encodeRow)

/-- Modelled from the spec: scanner mode of the CSV dialect of §6 —
`plain` outside quotes, `quoted` inside a quoted field, `closeq` right after
a quote character seen inside a quoted field. -/
inductive ScanMode where
  | plain | quoted | closeq
deriving DecidableEq

/-- Modelled from the spec: one pass of the §6 dialect. `field` is the cell
being accumulated, `row` the finished cells of the current line, `acc` the
finished lines; the pending line is flushed at end of input. -/
def csvScan (m : ScanMode) (field : List Char) (row : List (List Char))
    (acc : List (List (List Char))) : List Char → List (List (List Char))
  | [] => acc ++ [row ++ [field]]
  | c :: rest =>
    match m with
    | .plain =>
      if c = ',' then csvScan .plain [] (row ++ [field]) acc rest
      else if c = '\n' then csvScan .plain [] [] (acc ++ [row ++ [field]]) rest
      else if c = '"' then csvScan .quoted field row acc rest
      else csvScan .plain (field ++ [c]) row acc rest
    | .quoted =>
      if c = '"' then csvScan .closeq field row acc rest
      else csvScan .quoted (field ++ [c]) row acc rest
    | .closeq =>
      if c = '"' then csvScan .quoted (field ++ ['"']) row acc rest
      else if c = ',' then csvScan .plain [] (row ++ [field]) acc rest
      else if c = '\n' then csvScan .plain [] [] (acc ++ [row ++ [field]]) rest
      else csvScan .plain (field ++ [c]) row acc rest

/-- Modelled from the spec: parse of the §6 dialect with empty lines skipped
(`skipEmptyLines: true` drops lines that parse to a single empty cell). -/
def csvParse (input : List Char) : List (List (List Char)) :=
  (csvScan .plain [] [] [] input).filter fun r => r ≠ [[]]

/-- Position of a column name in the parsed header row. -/
def colIdx (name : List Char) : List (List Char) → Option Nat
  | [] => none
  | h :: t => if h = name then some 0 else (colIdx name t).map (· + 1)

/-- `row.Name` for a parsed object row: the cell under the header column of
that name, `undefined` (`none`) when the header lacks the column or the row
is short. -/
def cellOf (header row : List (List Char)) (name : List Char) : Option (List Char) :=
  (colIdx name header).bind fun i => row[i]?

/-- `x || ''` on a decoded cell: `undefined` and the empty string both give
the empty string. -/
def jsOrEmpty : Option (List Char) → List Char
  | none => []
  | some s => s

/-- `parseInt(x) || 0` on a decoded cell: NaN (absent cell or no leading
digits) gives 0, as does a parsed 0. -/
def jsYearOrZero (o : Option (List Char)) : Int :=
  match o with
  | none => 0
  | some s => (jsParseInt s).getD 0

/-- The row mapping of `handleFileUpload.complete`: one parsed row plus its
position becomes a Book, with `id: index + 1` and the per-column defaults. -/
def rowToBook (header row : List (List Char)) (idx : Nat) : Book :=
  { id := .int ((idx : Int) + 1)
    Title := .str (String.mk (jsOrEmpty (cellOf header row "Title".toList)))
    Author := .str (String.mk (jsOrEmpty (cellOf header row "Author".toList)))
    Genre := .str (String.mk (jsOrEmpty (cellOf header row "Genre".toList)))
    PublishedYear := .int (jsYearOrZero (cellOf header row "PublishedYear".toList))
    ISBN := .str (String.mk (jsOrEmpty (cellOf header row "ISBN".toList))) }

/-- `results.data.map((row, index) => ...)` with an explicit running index. -/
def mapWithIdx (f : Nat → List (List Char) → Book) : Nat → List (List (List Char)) → List Book
  | _, [] => []
  | i, r :: rest => f i r :: mapWithIdx f (i + 1) rest

/-- Full decode: parse the text, take the first line as header, map the data
rows to books with sequential indices from 0. -/
def decodeCSV (input : List Char) : List Book :=
  match csvParse input with
  | [] => []
  | header :: dataRows => mapWithIdx (fun i r => rowToBook header r i) 0 dataRows

/-! ## Reachable session states -/

/-- Session states reachable through the engine API: a load or generation
seeds `original = current` with an empty delta map and page 1, after which
any sequence of successful cell edits (on the five fixed columns, as the
table issues them) and resets may run. -/
inductive Reach : EditorState → Prop
  | load (orig : List Book) : Reach ⟨orig, orig, [], 1⟩
  | edit {s s' : EditorState} (i : Nat) (c : Col) (v : Value) :
      Reach s → c ∈ columns → handleCellEdit s i c v = .ok s' → Reach s'
  | reset {s : EditorState} : Reach s → Reach (handleResetEdits s)

/-! ## Concrete sample rows used by counterexamples and witnesses -/

def sampleA : Book := ⟨.int 1, .str "aa", .str "Ann", .str "Gen", .int 1990, .str "III"⟩

def sampleB : Book := ⟨.int 2, .str "bb", .str "Bob", .str "Gen", .int 2000, .str "JJJ"⟩

/-- A row whose internal id stringifies to "2" while no fixed column's value
contains "2". -/
def idOnlyMatch : Book := ⟨.int 2, .str "a", .str "b", .str "c", .int 7, .str "d"⟩

/-! ## C5 — reset -/

/-- C5 counterexample: `handleResetEdits` does not return the current page
number to 1 — a session sitting on page 3 stays on page 3 after reset. -/
theorem c5_counterexample :
    (handleResetEdits ⟨[sampleA], [sampleB], [(0, sampleB)], 3⟩).currentPage ≠ 1 := by
  decide

/-- C5 (amended): `handleResetEdits` restores `current` byte-for-byte to the
originally loaded collection, empties the delta map (`modifiedCount = 0`, no
cell or row reports as edited afterwards), but leaves the current page number
unchanged rather than returning it to 1. -/
theorem c5_reset_restores (s : EditorState) :
    (handleResetEdits s).currentData = s.originalData ∧
    modifiedCount (handleResetEdits s) = 0 ∧
    (∀ i c, isCellEdited (handleResetEdits s) i c = false) ∧
    (∀ i, isRowEdited (handleResetEdits s) i = false) ∧
    (handleResetEdits s).currentPage = s.currentPage := by
  refine ⟨rfl, rfl, fun i c => ?_, fun i => rfl, rfl⟩
  simp [isCellEdited, handleResetEdits]

/-! ## C3 — pagination -/

/-- `len ≤ ceil(len / size) * size`. -/
theorem length_le_totalPages_mul (len size : Nat) (hs : 0 < size) :
    len ≤ ((len + size - 1) / size) * size := by
  have h1 := Nat.div_add_mod (len + size - 1) size
  have h2 := Nat.mod_lt (len + size - 1) hs
  rw [Nat.mul_comm]
  omega

/-- Fixed-size slices at offsets `0, size, 2·size, …` tile a list once the
slice count covers its length. -/
theorem slices_tile (n : Nat) : ∀ (v : List Book) (size : Nat), 0 < size →
    v.length ≤ n * size →
    (List.range n).flatMap (fun i => (v.drop (i * size)).take size) = v := by
  induction n with
  | zero =>
    intro v size _ hl
    have hv : v = [] := List.eq_nil_of_length_eq_zero (by omega)
    simp [hv]
  | succ n ih =>
    intro v size hs hl
    rw [List.range_succ_eq_map, List.flatMap_cons, List.flatMap_map]
    have hfun : (fun i => (v.drop (Nat.succ i * size)).take size) =
        fun i => (((v.drop size).drop (i * size)).take size) := by
      funext i
      rw [List.drop_drop]
      congr 2
      rw [Nat.succ_mul]
      ring
    have hmul : (n + 1) * size = n * size + size := by ring
    rw [hfun, ih (v.drop size) size hs (by rw [List.length_drop]; omega)]
    simp [List.take_append_drop]

/-- C3 counterexample: the empty view has `totalPages = 0`, not 1; and the
page number is not clamped — with 26 records and page size 25 (`totalPages =
2`), requesting page 3 yields an empty slice instead of page 2's slice. -/
theorem c3_counterexample :
    totalPages ([] : List Book) 25 ≠ 1 ∧
    pageSlice (List.replicate 26 undefBook) 25 3 ≠
      pageSlice (List.replicate 26 undefBook) 25 2 := by
  constructor <;> decide

/-- C3 (amended): `totalPages` is the plain ceiling `ceil(len/pageSize)` with
no floor at 1, so it is 0 exactly on the empty view; the requested page is
not clamped: any page beyond `totalPages` silently yields an empty slice
(never an error), while pages `1..totalPages` tile the view exactly. -/
theorem c3_pagination (v : List Book) (size : Nat) (hs : 0 < size) :
    (totalPages v size = 0 ↔ v = []) ∧
    (∀ page, totalPages v size < page → pageSlice v size page = []) ∧
    (List.range (totalPages v size)).flatMap (fun i => pageSlice v size (i + 1)) = v := by
  refine ⟨?_, fun page hp => ?_, ?_⟩
  · unfold totalPages
    constructor
    · intro h
      have h1 := Nat.div_add_mod (v.length + size - 1) size
      rw [h] at h1
      have h2 := Nat.mod_lt (v.length + size - 1) hs
      refine List.eq_nil_of_length_eq_zero ?_
      omega
    · intro h
      rw [h]
      simp only [List.length_nil, Nat.zero_add]
      exact Nat.div_eq_of_lt (by omega)
  · unfold pageSlice
    have hlen : v.length ≤ (page - 1) * size := by
      have h1 := length_le_totalPages_mul v.length size hs
      have h2 : totalPages v size ≤ page - 1 := by unfold totalPages at hp ⊢; omega
      calc v.length ≤ totalPages v size * size := h1
        _ ≤ (page - 1) * size := Nat.mul_le_mul_right size h2
    rw [List.drop_eq_nil_of_le hlen]
    simp
  · have := slices_tile (totalPages v size) v size hs
      (by simpa [totalPages] using length_le_totalPages_mul v.length size hs)
    simpa [pageSlice] using this

/-- C3 witness: the amended pagination facts at a concrete view of 26 records
with page size 25. -/
theorem c3_pagination_witness :
    (totalPages (List.replicate 26 undefBook) 25 = 0 ↔ List.replicate 26 undefBook = []) ∧
    (∀ page, totalPages (List.replicate 26 undefBook) 25 < page →
      pageSlice (List.replicate 26 undefBook) 25 page = []) ∧
    (List.range (totalPages (List.replicate 26 undefBook) 25)).flatMap
      (fun i => pageSlice (List.replicate 26 undefBook) 25 (i + 1)) =
      List.replicate 26 undefBook :=
  c3_pagination (List.replicate 26 undefBook) 25 (by decide)

/-! ## C6 — text filter -/

/-- C6 counterexample: the text filter also matches the internal `id` datum —
a record whose id stringifies to "2" is retained by the query "2" although no
fixed-column value contains "2". -/
theorem c6_counterexample :
    textFilterStage "2" [idOnlyMatch] = [idOnlyMatch] ∧
    (columns.any fun c => strHas (jsToLower (stringify (idOnlyMatch.get c))) "2") = false := by
  constructor <;> decide

/-- C6 (amended): the text filter retains exactly the records for which the
lowercase stringification of at least one of the six object values — the
internal id together with the five fixed columns — contains the lowercase
query as a substring; the empty query retains every record. -/
theorem c6_text_filter (q : String) (l : List Book) (b : Book) :
    b ∈ textFilterStage q l ↔
      b ∈ l ∧ (q = "" ∨
        ((jsValues b).any fun v => strHas (jsToLower (stringify v)) (jsToLower q)) = true) := by
  unfold textFilterStage
  by_cases hq : q = "" <;> simp [hq, List.mem_filter]

/-! ## C2 — modified-only stage and filter-order independence -/

/-- C2: the modified-only stage tests delta membership of each record's
position in the sequence it receives, not its record index. With
`current = [sampleA, sampleB]`, the delta set `{1}` (only `sampleB` edited)
and the text query "bb" (which retains only `sampleB`), running the
modified-only stage after the text filter retains nothing — the lone survivor
sits at position 0, which is not in the delta set — while running it first
retains `sampleB`. The result set therefore depends on stage order, and the
stage does not retain the records whose record index is in the delta set. -/
theorem c2_bug_eval :
    modifiedOnlyStage [(1, sampleB)] (textFilterStage "bb" [sampleA, sampleB]) = [] ∧
    textFilterStage "bb" (modifiedOnlyStage [(1, sampleB)] [sampleA, sampleB]) = [sampleB] := by
  constructor <;> decide

/-! ## C9 — out-of-range edits and queries -/

/-- C9 counterexample: nothing signals `IndexOutOfRange`. The
`setCurrentData` updater silently grows a 0-length collection to length 3
when index 2 is edited, and out-of-range modification queries silently answer
`false` instead of signalling. -/
theorem c9_counterexample :
    (editRow [] 2 .Title (.str "x")).length = 3 ∧
    isCellEdited ⟨[], [], [], 1⟩ 5 .Title = false ∧
    isRowEdited ⟨[], [], [], 1⟩ 5 = false := by
  refine ⟨by decide, by decide, by decide⟩

/-- C9 (amended): an edit addressing an index beyond the collection length is
not guarded by any `IndexOutOfRange` check: the current-collection updater
grows the array to `index + 1` entries (breaking
`current.length == original.length` within that update), the delta updater
faults with an incidental TypeError from reading a property of the missing
original row (so the edit as a whole throws and commits nothing), and an
out-of-range cell-modification query silently answers `false`. -/
theorem c9_out_of_range (s : EditorState) (i : Nat) (c : Col) (v : Value)
    (hc : s.currentData.length ≤ i) (ho : s.originalData.length ≤ i) :
    (editRow s.currentData i c v).length = i + 1 ∧
    (∃ e, handleCellEdit s i c v = .error e) ∧
    isCellEdited s i c = false := by
  refine ⟨?_, ?_, ?_⟩
  · unfold editRow jsArraySet
    rw [if_neg (by omega)]
    simp
    omega
  · refine ⟨"TypeError: cannot read properties of undefined", ?_⟩
    unfold handleCellEdit editsUpd
    rw [List.getElem?_eq_none ho]
  · unfold isCellEdited
    rw [List.getElem?_eq_none ho, List.getElem?_eq_none hc]
    simp

/-- C9 witness: the amended out-of-range behaviour on the empty session at
index 2. -/
theorem c9_out_of_range_witness :
    (editRow ([] : List Book) 2 .Title (.str "x")).length = 2 + 1 ∧
    (∃ e, handleCellEdit ⟨[], [], [], 1⟩ 2 .Title (.str "x") = .error e) ∧
    isCellEdited ⟨[], [], [], 1⟩ 2 .Title = false :=
  c9_out_of_range ⟨[], [], [], 1⟩ 2 .Title (.str "x") (by decide) (by decide)

/-! ## C10 — edits store the supplied value uncoerced -/

theorem Book.get_set_same (b : Book) (c : Col) (v : Value) : (b.set c v).get c = v := by
  cases c <;> rfl

/-- C10: an in-range `handleCellEdit` stores in `current[i][column]` exactly
the supplied value, with no type coercion — in particular a `PublishedYear`
edit stores the raw (string) value, and the year-range filter predicate
subsequently evaluates on that uncoerced value. -/
theorem c10_uncoerced (l : List Book) (i : Nat) (c : Col) (v : Value)
    (h : i < l.length) :
    ∃ b0, l[i]? = some b0 ∧
      (editRow l i c v)[i]? = some (b0.set c v) ∧
      (b0.set c v).get c = v ∧
      (c = .PublishedYear → ∀ mn mx : Int,
        (jsLeB (.int mn) ((b0.set c v).PublishedYear) &&
          jsLeB ((b0.set c v).PublishedYear) (.int mx)) =
        (jsLeB (.int mn) v && jsLeB v (.int mx))) := by
  refine ⟨l[i], List.getElem?_eq_getElem h, ?_, Book.get_set_same _ _ _, ?_⟩
  · unfold editRow jsArraySet jsSpread
    rw [List.getElem?_eq_getElem h, if_pos h]
    exact List.getElem?_set_self h
  · rintro rfl mn mx
    have : (Book.set l[i] .PublishedYear v).PublishedYear = v := rfl
    rw [this]

/-- C10 witness: editing `PublishedYear` of a one-record collection to the
raw string "199x" stores exactly that string. -/
theorem c10_uncoerced_witness :
    ∃ b0, [sampleA][0]? = some b0 ∧
      (editRow [sampleA] 0 .PublishedYear (.str "199x"))[0]? =
        some (b0.set .PublishedYear (.str "199x")) ∧
      (b0.set .PublishedYear (.str "199x")).get .PublishedYear = .str "199x" ∧
      (Col.PublishedYear = .PublishedYear → ∀ mn mx : Int,
        (jsLeB (.int mn) ((b0.set .PublishedYear (.str "199x")).PublishedYear) &&
          jsLeB ((b0.set .PublishedYear (.str "199x")).PublishedYear) (.int mx)) =
        (jsLeB (.int mn) (.str "199x") && jsLeB (.str "199x") (.int mx))) :=
  c10_uncoerced [sampleA] 0 .PublishedYear (.str "199x") (by decide)

/-! ## C1 — the delta invariant -/

/-- A record differs from its original on some fixed column, under string
comparison. -/
def rowModified (o c : Book) : Bool :=
  columns.any fun col => stringify (c.get col) != stringify (o.get col)

theorem rowModified_self (o : Book) : rowModified o o = false := by
  simp [rowModified]

theorem mapHas_mapSet (m : List (Nat × Book)) (k j : Nat) (v : Book) :
    mapHas (mapSet k v m) j = if j = k then true else mapHas m j := by
  induction m with
  | nil =>
    by_cases h : j = k
    · subst h
      simp [mapSet, mapHas]
    · have h' : k ≠ j := fun hh => h hh.symm
      simp [mapSet, mapHas, h, h']
  | cons p rest ih =>
    obtain ⟨k', v'⟩ := p
    by_cases hk : k' = k
    · subst hk
      by_cases h : j = k'
      · subst h
        simp [mapSet, mapHas]
      · have h' : k' ≠ j := fun hh => h hh.symm
        simp [mapSet, mapHas, h, h']
    · have hrec : mapHas (mapSet k v ((k', v') :: rest)) j =
          (decide (k' = j) || mapHas (mapSet k v rest) j) := by
        simp [mapSet, hk, mapHas]
      rw [hrec, ih]
      by_cases h : j = k
      · subst h
        simp
      · simp [h, mapHas]

theorem mapHas_mapDelete (m : List (Nat × Book)) (k j : Nat) :
    mapHas (mapDelete k m) j = if j = k then false else mapHas m j := by
  induction m with
  | nil => by_cases h : j = k <;> simp [mapDelete, mapHas, h]
  | cons p rest ih =>
    obtain ⟨k', v'⟩ := p
    have hrec : mapDelete k ((k', v') :: rest) =
        if k' ≠ k then (k', v') :: mapDelete k rest else mapDelete k rest := by
      simp [mapDelete, List.filter_cons]
    rw [hrec]
    by_cases hk : k' = k
    · simp only [hk, ne_eq, not_true_eq_false, if_false]
      rw [ih]
      by_cases h : j = k
      · simp [h]
      · have h' : k ≠ j := fun hh => h hh.symm
        simp [h, mapHas, h']
    · simp only [ne_eq, hk, not_false_eq_true, if_true]
      have : mapHas ((k', v') :: mapDelete k rest) j =
          (decide (k' = j) || mapHas (mapDelete k rest) j) := by
        simp [mapHas]
      rw [this, ih]
      by_cases h : j = k
      · subst h
        have h' : ¬ (k' = j) := hk
        simp [h']
      · simp [h, mapHas]

theorem Book.set_id_of_mem_columns (b : Book) (c : Col) (v : Value)
    (h : c ∈ columns) : (b.set c v).id = b.id := by
  fin_cases h <;> rfl

/-- With equal ids, the `Object.keys` comparison of `handleCellEdit` agrees
with the fixed-column comparison. -/
theorem jsKeys_any_eq_rowModified (n o : Book) (hid : n.id = o.id) :
    (jsKeys.any fun k => stringify (n.get k) != stringify (o.get k)) = rowModified o n := by
  simp [jsKeys, rowModified, columns, Book.get, hid]

/-- The inductive invariant of reachable sessions: lengths agree, ids agree
positionally, and the delta map holds exactly the indices whose current row
differs from the original row. -/
def Inv (s : EditorState) : Prop :=
  s.currentData.length = s.originalData.length ∧
  (∀ (i : Nat) (o c : Book),
    s.originalData[i]? = some o → s.currentData[i]? = some c → c.id = o.id) ∧
  (∀ i : Nat, mapHas s.edits i = true ↔
    ∃ o c : Book, s.originalData[i]? = some o ∧ s.currentData[i]? = some c ∧
      rowModified o c = true)

theorem fresh_inv (orig : List Book) (page : Nat) : Inv ⟨orig, orig, [], page⟩ := by
  refine ⟨rfl, ?_, ?_⟩
  · intro i o c ho hc
    rw [ho] at hc
    cases hc
    rfl
  · intro i
    constructor
    · intro h
      simp [mapHas] at h
    · rintro ⟨o, c, ho, hc, hm⟩
      rw [ho] at hc
      cases hc
      rw [rowModified_self] at hm
      cases hm

theorem reach_inv {s : EditorState} (h : Reach s) : Inv s := by
  induction h with
  | load orig => exact fresh_inv orig 1
  | reset hr ih =>
    rename_i t
    exact fresh_inv t.originalData t.currentPage
  | edit i c v hr hcol hok ih =>
    obtain ⟨hlen, hid, hdelta⟩ := ih
    rename_i s s'
    unfold handleCellEdit at hok
    cases heu : editsUpd s.originalData s.currentData s.edits i c v with
    | error e => rw [heu] at hok; cases hok
    | ok e' =>
      rw [heu] at hok
      cases hok
      unfold editsUpd at heu
      cases horig : s.originalData[i]? with
      | none => rw [horig] at heu; cases heu
      | some origRow =>
        rw [horig] at heu
        have hio : i < s.originalData.length := by
          by_contra hlt
          rw [List.getElem?_eq_none (by omega)] at horig
          cases horig
        have hic : i < s.currentData.length := by omega
        obtain ⟨curRow, hcur⟩ : ∃ cr, s.currentData[i]? = some cr :=
          ⟨s.currentData.get ⟨i, hic⟩, List.getElem?_eq_getElem hic⟩
        rw [hcur] at heu
        simp only [jsSpread, Except.ok.injEq] at heu
        set newRow := curRow.set c v with hnewdef
        have hrow : editRow s.currentData i c v = s.currentData.set i newRow := by
          unfold editRow jsArraySet
          rw [if_pos hic, hcur]
          rfl
        have hnid : newRow.id = origRow.id := by
          rw [hnewdef, Book.set_id_of_mem_columns _ _ _ hcol]
          exact hid i origRow curRow horig hcur
        have he' : e' = if rowModified origRow newRow then
            mapSet i newRow s.edits else mapDelete i s.edits := by
          rw [← jsKeys_any_eq_rowModified newRow origRow hnid]
          exact heu.symm
        refine ⟨?_, ?_, ?_⟩
        · simp [hrow, hlen]
        · intro j o cb ho hcb
          rw [hrow] at hcb
          by_cases hj : j = i
          · subst hj
            rw [List.getElem?_set_self hic] at hcb
            cases hcb
            rw [horig] at ho
            cases ho
            exact hnid
          · rw [List.getElem?_set_ne (fun h => hj h.symm)] at hcb
            exact hid j o cb ho hcb
        · intro j
          by_cases hj : j = i
          · subst hj
            cases hmod : rowModified origRow newRow with
            | true =>
              rw [hmod] at he'
              simp only [if_true] at he'
              rw [he', mapHas_mapSet, if_pos rfl]
              refine iff_of_true rfl ⟨origRow, newRow, horig, ?_, hmod⟩
              rw [hrow]
              exact List.getElem?_set_self hic
            | false =>
              rw [hmod] at he'
              simp only [Bool.false_eq_true, if_false] at he'
              rw [he', mapHas_mapDelete, if_pos rfl]
              refine iff_of_false (by simp) ?_
              rintro ⟨o, cb, ho, hcb, hm⟩
              rw [horig] at ho
              cases ho
              rw [hrow, List.getElem?_set_self hic] at hcb
              cases hcb
              rw [hmod] at hm
              cases hm
          · have hmaps : mapHas e' j = mapHas s.edits j := by
              cases hmod : rowModified origRow newRow with
              | true =>
                rw [hmod] at he'
                simp only [if_true] at he'
                rw [he', mapHas_mapSet, if_neg hj]
              | false =>
                rw [hmod] at he'
                simp only [Bool.false_eq_true, if_false] at he'
                rw [he', mapHas_mapDelete, if_neg hj]
            rw [hmaps]
            rw [hdelta j]
            constructor <;> rintro ⟨o, cb, ho, hcb, hm⟩ <;>
              refine ⟨o, cb, ho, ?_, hm⟩
            · rw [hrow, List.getElem?_set_ne (fun h => hj h.symm)]
              exact hcb
            · rw [hrow, List.getElem?_set_ne (fun h => hj h.symm)] at hcb
              exact hcb

/-- C1: in every session reachable by a load or generation followed by any
sequence of cell edits and resets, the delta map contains a record index
exactly when some fixed column of the current record differs, as a string,
from the original record — so an edit reverting the only changed field
removes the record from the delta map. -/
theorem c1_delta_invariant {s : EditorState} (hs : Reach s) (i : Nat) (o c : Book)
    (ho : s.originalData[i]? = some o) (hc : s.currentData[i]? = some c) :
    (mapHas s.edits i = true ↔
      ∃ col ∈ columns, stringify (c.get col) ≠ stringify (o.get col)) := by
  rw [(reach_inv hs).2.2 i]
  constructor
  · rintro ⟨o', c', ho', hc', hm⟩
    rw [ho] at ho'
    cases ho'
    rw [hc] at hc'
    cases hc'
    rw [rowModified, List.any_eq_true] at hm
    obtain ⟨col, hmem, hb⟩ := hm
    exact ⟨col, hmem, by simpa using hb⟩
  · rintro ⟨col, hmem, hne⟩
    refine ⟨o, c, ho, hc, ?_⟩
    rw [rowModified, List.any_eq_true]
    exact ⟨col, hmem, by simpa using hne⟩

/-- The row `sampleA` after its Title is edited to "Z". -/
def sampleAEdited : Book := ⟨.int 1, .str "Z", .str "Ann", .str "Gen", .int 1990, .str "III"⟩

/-- C1 witness: load `[sampleA]`, edit record 0's Title to "Z"; the delta map
holds index 0 iff some fixed column differs. -/
theorem c1_delta_invariant_witness :
    mapHas [(0, sampleAEdited)] 0 = true ↔
      ∃ col ∈ columns, stringify (sampleAEdited.get col) ≠ stringify (sampleA.get col) := by
  have hr : Reach ⟨[sampleA], [sampleAEdited], [(0, sampleAEdited)], 1⟩ := by
    have h0 : Reach ⟨[sampleA], [sampleA], [], 1⟩ := Reach.load [sampleA]
    exact Reach.edit 0 .Title (.str "Z") h0 (by decide) (by rfl)
  exact c1_delta_invariant hr 0 sampleA sampleAEdited rfl rfl

/-! ## C8 — decode row defaults and indexing -/

theorem mapWithIdx_getElem? (f : Nat → List (List Char) → Book) :
    ∀ (l : List (List (List Char))) (start i : Nat),
      (mapWithIdx f start l)[i]? = l[i]?.map (f (start + i)) := by
  intro l
  induction l with
  | nil => intro start i; simp [mapWithIdx]
  | cons r rest ih =>
    intro start i
    cases i with
    | zero => simp [mapWithIdx]
    | succ n =>
      have harith : start + 1 + n = start + (n + 1) := by omega
      simp only [mapWithIdx, List.getElem?_cons_succ]
      rw [ih (start + 1) n, harith]

/-- C8: every decoded data row defaults each absent text field to the empty
string, defaults `PublishedYear` to 0 when the source cell is absent or fails
integer parsing, and receives the sequential identity of its file position
(`id = index + 1`, positions counted from 0 in file order). -/
theorem c8_decode_defaults (input : List Char) (header : List (List Char))
    (dataRows : List (List (List Char))) (hparse : csvParse input = header :: dataRows)
    (i : Nat) (row : List (List Char)) (hrow : dataRows[i]? = some row) :
    ∃ b, (decodeCSV input)[i]? = some b ∧
      b.id = .int ((i : Int) + 1) ∧
      (cellOf header row "Title".toList = none → b.Title = .str "") ∧
      (cellOf header row "Author".toList = none → b.Author = .str "") ∧
      (cellOf header row "Genre".toList = none → b.Genre = .str "") ∧
      (cellOf header row "ISBN".toList = none → b.ISBN = .str "") ∧
      (cellOf header row "PublishedYear".toList = none → b.PublishedYear = .int 0) ∧
      (∀ yv, cellOf header row "PublishedYear".toList = some yv →
        jsParseInt yv = none → b.PublishedYear = .int 0) := by
  refine ⟨rowToBook header row i, ?_, rfl, ?_, ?_, ?_, ?_, ?_, ?_⟩
  · unfold decodeCSV
    rw [hparse, mapWithIdx_getElem?]
    simp [hrow]
  · intro h
    simp only [rowToBook, h, jsOrEmpty]
  · intro h
    simp only [rowToBook, h, jsOrEmpty]
  · intro h
    simp only [rowToBook, h, jsOrEmpty]
  · intro h
    simp only [rowToBook, h, jsOrEmpty]
  · intro h
    simp only [rowToBook, h, jsYearOrZero]
  · intro yv hv hn
    simp only [rowToBook, hv, jsYearOrZero, hn, Option.getD_none]

def c8input : List Char := "Title,PublishedYear\nfoo,abc".toList

def c8header : List (List Char) := ["Title".toList, "PublishedYear".toList]

def c8row : List (List Char) := ["foo".toList, "abc".toList]

/-- C8 witness: a two-column file whose year cell "abc" fails integer parsing
and whose Author/Genre/ISBN cells are absent. -/
theorem c8_decode_defaults_witness :
    ∃ b, (decodeCSV c8input)[0]? = some b ∧
      b.id = .int ((0 : Int) + 1) ∧
      (cellOf c8header c8row "Title".toList = none → b.Title = .str "") ∧
      (cellOf c8header c8row "Author".toList = none → b.Author = .str "") ∧
      (cellOf c8header c8row "Genre".toList = none → b.Genre = .str "") ∧
      (cellOf c8header c8row "ISBN".toList = none → b.ISBN = .str "") ∧
      (cellOf c8header c8row "PublishedYear".toList = none → b.PublishedYear = .int 0) ∧
      (∀ yv, cellOf c8header c8row "PublishedYear".toList = some yv →
        jsParseInt yv = none → b.PublishedYear = .int 0) :=
  c8_decode_defaults c8input c8header [c8row] (by decide) 0 c8row rfl

/-! ## C4 — encode/decode round trip -/

/-- The five data cells a book row serialises to. -/
def rowCells (b : Book) : List (List Char) :=
  columns.map fun c => (stringify (b.get c)).toList

/-- The parsed header row produced by decoding an encoded file. -/
def hdr5 : List (List Char) :=
  ["Title".toList, "Author".toList, "Genre".toList, "PublishedYear".toList, "ISBN".toList]

/-- The value is a string (a text field not lost to coercion). -/
def Value.isStr : Value → Bool
  | .str _ => true
  | _ => false

/-- The value is an integer that `parseInt` recovers exactly from its
stringification. -/
def yearReparses : Value → Bool
  | .int n => jsParseInt (toString n).toList == some n
  | _ => false

theorem csvScan_nil (m : ScanMode) (field : List Char) (row : List (List Char))
    (acc : List (List (List Char))) : csvScan m field row acc [] = acc ++ [row ++ [field]] := rfl

theorem scanEsc (s : List Char) : ∀ (field : List Char) (row : List (List Char))
    (acc : List (List (List Char))) (rest : List Char),
    csvScan .quoted field row acc (escQuotes s ++ rest) =
      csvScan .quoted (field ++ s) row acc rest := by
  induction s with
  | nil => intro field row acc rest; simp [escQuotes]
  | cons c cs ih =>
    intro field row acc rest
    by_cases hc : c = '"'
    · subst hc
      simp only [escQuotes, eq_self_iff_true, if_true, List.cons_append]
      rw [show csvScan .quoted field row acc
          ('"' :: '"' :: (escQuotes cs ++ rest)) =
          csvScan .quoted (field ++ ['"']) row acc (escQuotes cs ++ rest) from rfl]
      rw [ih]
      simp
    · simp only [escQuotes, if_neg hc, List.cons_append]
      rw [show csvScan .quoted field row acc (c :: (escQuotes cs ++ rest)) =
          csvScan .quoted (field ++ [c]) row acc (escQuotes cs ++ rest) from ?_]
      · rw [ih]
        simp
      · simp [csvScan, hc]

theorem scanField (v : Value) (row : List (List Char)) (acc : List (List (List Char)))
    (rest : List Char) :
    csvScan .plain [] row acc (encodeField v ++ rest) =
      csvScan .closeq (stringify v).toList row acc rest := by
  unfold encodeField
  simp only [List.cons_append, List.append_assoc, List.singleton_append, List.nil_append]
  rw [show csvScan .plain [] row acc
      ('"' :: (escQuotes (stringify v).toList ++ '"' :: rest)) =
      csvScan .quoted [] row acc (escQuotes (stringify v).toList ++ '"' :: rest) from rfl]
  rw [scanEsc]
  rfl

theorem scanCloseqComma (f : List Char) (row : List (List Char))
    (acc : List (List (List Char))) (rest : List Char) :
    csvScan .closeq f row acc (',' :: rest) = csvScan .plain [] (row ++ [f]) acc rest := rfl

theorem scanRow (b : Book) (row : List (List Char)) (acc : List (List (List Char)))
    (rest : List Char) :
    csvScan .plain [] row acc (encodeRow b ++ rest) =
      csvScan .closeq (stringify (b.get .ISBN)).toList
        (row ++ [(stringify (b.get .Title)).toList, (stringify (b.get .Author)).toList,
          (stringify (b.get .Genre)).toList, (stringify (b.get .PublishedYear)).toList])
        acc rest := by
  unfold encodeRow columns
  simp only [List.map_cons, List.map_nil, joinSep, List.append_assoc, List.cons_append,
    List.singleton_append, List.nil_append]
  rw [scanField, scanCloseqComma, scanField, scanCloseqComma, scanField, scanCloseqComma,
    scanField, scanCloseqComma, scanField]
  simp

theorem scanRows (bs : List Book) : ∀ (m : ScanMode), m ≠ .quoted →
    ∀ (field : List Char) (row : List (List Char)) (acc : List (List (List Char))),
    csvScan m field row acc (bs.map (fun b => '\n' :: encodeRow b)).flatten =
      (acc ++ [row ++ [field]]) ++ bs.map rowCells := by
  induction bs with
  | nil =>
    intro m _ field row acc
    simp [csvScan_nil]
  | cons b bs ih =>
    intro m hm field row acc
    simp only [List.map_cons, List.flatten_cons, List.cons_append, List.append_assoc]
    have hstep : csvScan m field row acc
        ('\n' :: (encodeRow b ++ (bs.map (fun b => '\n' :: encodeRow b)).flatten)) =
        csvScan .plain [] [] (acc ++ [row ++ [field]])
          (encodeRow b ++ (bs.map (fun b => '\n' :: encodeRow b)).flatten) := by
      cases m with
      | plain => rfl
      | quoted => exact absurd rfl hm
      | closeq => rfl
    rw [hstep, scanRow, ih .closeq (by intro h; cases h)]
    simp [rowCells, columns]

theorem scanHeader (rest : List Char) :
    csvScan .plain [] [] [] (headerChars ++ rest) =
      csvScan .plain "ISBN".toList
        ["Title".toList, "Author".toList, "Genre".toList, "PublishedYear".toList] [] rest := rfl

theorem joinSep_cons_flat (sep x : List Char) (xs : List (List Char)) :
    joinSep sep (x :: xs) = x ++ (xs.map fun y => sep ++ y).flatten := by
  induction xs generalizing x with
  | nil => simp [joinSep]
  | cons y rest ih =>
    simp only [joinSep, List.map_cons, List.flatten_cons]
    rw [ih y]
    simp

theorem rowCells_ne (b : Book) : rowCells b ≠ [[]] := by
  intro h
  simpa [rowCells, columns] using congrArg List.length h

/-- Parsing the encoded text recovers the header and one cell row per book. -/
theorem csvParse_encode (books : List Book) :
    csvParse (booksToCSV books) = hdr5 :: books.map rowCells := by
  unfold csvParse booksToCSV
  rw [joinSep_cons_flat]
  have hmap : (books.map encodeRow).map (fun y => ['\n'] ++ y) =
      books.map fun b => '\n' :: encodeRow b := by
    rw [List.map_map]
    rfl
  rw [hmap, scanHeader, scanRows _ .plain (by intro h; cases h)]
  rw [List.filter_append]
  have h1 : List.filter (fun r => decide (r ≠ [[]]))
      ([] ++ [["Title".toList, "Author".toList, "Genre".toList, "PublishedYear".toList] ++
        ["ISBN".toList]]) =
      [hdr5] := by decide
  have h2 : List.filter (fun r => decide (r ≠ [[]])) (books.map rowCells) =
      books.map rowCells := by
    rw [List.filter_eq_self]
    intro r hr
    obtain ⟨b, _, rfl⟩ := List.mem_map.mp hr
    simpa using rowCells_ne b
  rw [h1, h2]
  rfl

/-- Decoding one serialised row at position `idx` reproduces the book,
provided its text fields are strings, its year re-parses, and its id is the
sequential `idx + 1`. -/
theorem rowToBook_rowCells (b : Book) (idx : Nat)
    (ht : b.Title.isStr) (ha : b.Author.isStr) (hg : b.Genre.isStr) (hi : b.ISBN.isStr)
    (hy : yearReparses b.PublishedYear) (hid : b.id = .int ((idx : Int) + 1)) :
    rowToBook hdr5 (rowCells b) idx = b := by
  obtain ⟨bid, bt, ba, bg, bp, bi⟩ := b
  simp only [Value.isStr] at ht ha hg hi
  cases bt with
  | str st => ?_
  | int _ => cases ht
  | undef => cases ht
  cases ba with
  | str sa => ?_
  | int _ => cases ha
  | undef => cases ha
  cases bg with
  | str sg => ?_
  | int _ => cases hg
  | undef => cases hg
  cases bi with
  | str si => ?_
  | int _ => cases hi
  | undef => cases hi
  cases bp with
  | int n => ?_
  | str _ => cases hy
  | undef => cases hy
  simp only [yearReparses, beq_iff_eq] at hy
  have hcells : rowCells ⟨bid, .str st, .str sa, .str sg, .int n, .str si⟩ =
      [st.toList, sa.toList, sg.toList, (toString n).toList, si.toList] := by
    simp [rowCells, columns, Book.get, stringify]
  rw [hcells]
  unfold rowToBook
  simp only at hid
  rw [hid]
  have hT : cellOf hdr5 [st.toList, sa.toList, sg.toList, (toString n).toList, si.toList]
      "Title".toList = some st.toList := rfl
  have hA : cellOf hdr5 [st.toList, sa.toList, sg.toList, (toString n).toList, si.toList]
      "Author".toList = some sa.toList := rfl
  have hG : cellOf hdr5 [st.toList, sa.toList, sg.toList, (toString n).toList, si.toList]
      "Genre".toList = some sg.toList := rfl
  have hY : cellOf hdr5 [st.toList, sa.toList, sg.toList, (toString n).toList, si.toList]
      "PublishedYear".toList = some (toString n).toList := rfl
  have hI : cellOf hdr5 [st.toList, sa.toList, sg.toList, (toString n).toList, si.toList]
      "ISBN".toList = some si.toList := rfl
  rw [hT, hA, hG, hY, hI]
  simp only [jsOrEmpty, jsYearOrZero, hy, Option.getD_some]
  rfl

/-- Per-book conditions for the round trip, with the id counted from `start`. -/
def RowOk (b : Book) (idv : Int) : Prop :=
  b.Title.isStr ∧ b.Author.isStr ∧ b.Genre.isStr ∧ b.ISBN.isStr ∧
    yearReparses b.PublishedYear ∧ b.id = .int idv

theorem decode_map_rowCells : ∀ (books : List Book) (start : Nat),
    (∀ (i : Nat) (hi : i < books.length), RowOk (books.get ⟨i, hi⟩) ((start : Int) + i + 1)) →
    mapWithIdx (fun i r => rowToBook hdr5 r i) start (books.map rowCells) = books := by
  intro books
  induction books with
  | nil => intro start _; rfl
  | cons b bs ih =>
    intro start h
    have h0 := h 0 (by simp)
    obtain ⟨ht, ha, hg, hi, hy, hid⟩ := h0
    simp only [List.get] at ht ha hg hi hy hid
    simp only [List.map_cons, mapWithIdx]
    rw [rowToBook_rowCells b start ht ha hg hi hy (by rw [hid]; norm_num)]
    rw [ih (start + 1) ?_]
    intro i hik
    have := h (i + 1) (by simpa using Nat.succ_lt_succ hik)
    simp only [List.get] at this ⊢
    convert this using 2
    push_cast
    ring

/-- C4: decoding the encoded text of a collection whose text fields are
strings (always preserved by the always-quote/double-quote encoding) and
whose integer year fields re-parse to the same integer reproduces the
collection exactly, with ids reassigned sequentially in order. -/
theorem c4_round_trip (books : List Book)
    (htext : ∀ b ∈ books, b.Title.isStr ∧ b.Author.isStr ∧ b.Genre.isStr ∧ b.ISBN.isStr)
    (hyear : ∀ b ∈ books, yearReparses b.PublishedYear)
    (hid : ∀ (i : Nat) (hi : i < books.length), (books.get ⟨i, hi⟩).id = .int ((i : Int) + 1)) :
    decodeCSV (booksToCSV books) = books := by
  unfold decodeCSV
  rw [csvParse_encode]
  refine decode_map_rowCells books 0 ?_
  intro i hi
  have hmem : books.get ⟨i, hi⟩ ∈ books := List.get_mem books i hi
  obtain ⟨ht, ha, hg, hb⟩ := htext _ hmem
  refine ⟨ht, ha, hg, hb, hyear _ hmem, ?_⟩
  rw [hid i hi]
  norm_num

/-- Two rows exercising quotes, commas, newlines and a negative year. -/
def c4books : List Book :=
  [⟨.int 1, .str "A\"B", .str "C,D", .str "E", .int 1990, .str "F"⟩,
   ⟨.int 2, .str "G", .str "H", .str "I", .int (-5), .str "J\nK"⟩]

/-- C4 witness: the round trip on `c4books`. -/
theorem c4_round_trip_witness : decodeCSV (booksToCSV c4books) = c4books :=
  c4_round_trip c4books (by decide) (by decide) (by decide)

/-! ## C7 — sort stability and ordering

Generic facts about the stable insertion sort modelling `Array.sort`, proved
for comparators induced by a key function into a strict order. -/

section StableSort

variable {α β : Type}

/-- Comparator induced by a key function. -/
def keyLt (key : α → β) (ltb : β → β → Bool) (a b : α) : Bool := ltb (key a) (key b)

theorem mem_sIns (lt : α → α → Bool) (x : α) (l : List α) (a : α) :
    a ∈ sIns lt x l ↔ a = x ∨ a ∈ l := by
  induction l with
  | nil => simp [sIns]
  | cons y ys ih =>
    simp only [sIns]
    split
    · simp [List.mem_cons]
    · simp only [List.mem_cons, ih]
      tauto

theorem sIns_perm (lt : α → α → Bool) (x : α) (l : List α) : (sIns lt x l).Perm (x :: l) := by
  induction l with
  | nil => exact List.Perm.refl _
  | cons y ys ih =>
    simp only [sIns]
    split
    · exact List.Perm.refl _
    · exact (ih.cons y).trans (List.Perm.swap x y ys)

theorem foldl_sIns_perm (lt : α → α → Bool) : ∀ (l acc : List α),
    (l.foldl (fun a x => sIns lt x a) acc).Perm (acc ++ l) := by
  intro l
  induction l with
  | nil => intro acc; simp
  | cons x xs ih =>
    intro acc
    simp only [List.foldl_cons]
    refine (ih (sIns lt x acc)).trans ?_
    refine (List.Perm.append_right xs (sIns_perm lt x acc)).trans ?_
    exact List.perm_middle.symm

theorem stableSortBy_perm (lt : α → α → Bool) (l : List α) : (stableSortBy lt l).Perm l := by
  simpa using foldl_sIns_perm lt l []

/-- Sortedness for a boolean comparator: no later element is strictly below
an earlier one. -/
def SortedB (lt : α → α → Bool) (l : List α) : Prop :=
  List.Pairwise (fun a b => lt b a = false) l

theorem sIns_sorted (lt : α → α → Bool)
    (hasym : ∀ a b, lt a b = true → lt b a = false)
    (htrans : ∀ a b c, lt a b = true → lt b c = true → lt a c = true)
    (x : α) (l : List α) (hl : SortedB lt l) : SortedB lt (sIns lt x l) := by
  induction l with
  | nil => simp [sIns, SortedB]
  | cons y ys ih =>
    obtain ⟨hy, hys⟩ := List.pairwise_cons.mp hl
    simp only [sIns]
    cases hlt : lt x y with
    | true =>
      rw [if_pos rfl]
      refine List.pairwise_cons.mpr ⟨?_, hl⟩
      intro z hz
      rcases List.mem_cons.mp hz with rfl | hz'
      · exact hasym _ _ hlt
      · cases hzx : lt z x with
        | false => rfl
        | true =>
          have h1 := htrans _ _ _ hzx hlt
          rw [hy z hz'] at h1
          cases h1
    | false =>
      rw [if_neg (by simp)]
      refine List.pairwise_cons.mpr ⟨?_, ih hys⟩
      intro z hz
      rcases (mem_sIns lt x ys z).mp hz with rfl | hz'
      · exact hlt
      · exact hy z hz'

theorem foldl_sIns_sorted (lt : α → α → Bool)
    (hasym : ∀ a b, lt a b = true → lt b a = false)
    (htrans : ∀ a b c, lt a b = true → lt b c = true → lt a c = true) :
    ∀ (l acc : List α), SortedB lt acc →
      SortedB lt (l.foldl (fun a x => sIns lt x a) acc) := by
  intro l
  induction l with
  | nil => intro acc h; exact h
  | cons x xs ih =>
    intro acc h
    exact ih (sIns lt x acc) (sIns_sorted lt hasym htrans x acc h)

theorem stableSortBy_sorted (lt : α → α → Bool)
    (hasym : ∀ a b, lt a b = true → lt b a = false)
    (htrans : ∀ a b c, lt a b = true → lt b c = true → lt a c = true)
    (l : List α) : SortedB lt (stableSortBy lt l) :=
  foldl_sIns_sorted lt hasym htrans l [] (by simp [SortedB])

theorem filter_sIns [DecidableEq β] (key : α → β) (ltb : β → β → Bool)
    (hirr : ∀ u, ltb u u = false) (x : α) (l : List α)
    (hl : SortedB (keyLt key ltb) l) (v : β) :
    (sIns (keyLt key ltb) x l).filter (fun a => decide (key a = v)) =
      if key x = v then l.filter (fun a => decide (key a = v)) ++ [x]
      else l.filter (fun a => decide (key a = v)) := by
  induction l with
  | nil =>
    by_cases hx : key x = v <;> simp [sIns, List.filter_cons, hx]
  | cons y ys ih =>
    obtain ⟨hy, hys⟩ := List.pairwise_cons.mp hl
    simp only [sIns]
    cases hlt : keyLt key ltb x y with
    | true =>
      rw [if_pos rfl]
      by_cases hx : key x = v
      · have hyv : key y ≠ v := by
          intro h
          unfold keyLt at hlt
          rw [hx, h, hirr] at hlt
          cases hlt
        have hzs : ∀ z ∈ ys, key z ≠ v := by
          intro z hz h
          have h1 := hy z hz
          unfold keyLt at h1 hlt
          rw [h, ← hx] at h1
          rw [h1] at hlt
          cases hlt
        have hnil : (y :: ys).filter (fun a => decide (key a = v)) = [] := by
          rw [List.filter_eq_nil_iff]
          intro a ha
          rcases List.mem_cons.mp ha with rfl | h'
          · simp [hyv]
          · simp [hzs a h']
        rw [List.filter_cons, if_pos (by simp [hx]), hnil, if_pos hx]
        simp
      · rw [List.filter_cons, if_neg (by simp [hx]), if_neg hx]
    | false =>
      rw [if_neg (by simp)]
      rw [List.filter_cons, ih hys]
      by_cases hyv : key y = v <;> by_cases hx : key x = v <;>
        simp [List.filter_cons, hyv, hx]

theorem foldl_sIns_filter [DecidableEq β] (key : α → β) (ltb : β → β → Bool)
    (hirr : ∀ u, ltb u u = false)
    (hasym : ∀ u w, ltb u w = true → ltb w u = false)
    (htrans : ∀ u w z, ltb u w = true → ltb w z = true → ltb u z = true) :
    ∀ (l acc : List α), SortedB (keyLt key ltb) acc → ∀ v : β,
      (l.foldl (fun a x => sIns (keyLt key ltb) x a) acc).filter
          (fun a => decide (key a = v)) =
        acc.filter (fun a => decide (key a = v)) ++
          l.filter (fun a => decide (key a = v)) := by
  have hasym' : ∀ a b, keyLt key ltb a b = true → keyLt key ltb b a = false :=
    fun a b h => hasym _ _ h
  have htrans' : ∀ a b c, keyLt key ltb a b = true → keyLt key ltb b c = true →
      keyLt key ltb a c = true := fun a b c h1 h2 => htrans _ _ _ h1 h2
  intro l
  induction l with
  | nil => intro acc _ v; simp
  | cons x xs ih =>
    intro acc hacc v
    simp only [List.foldl_cons]
    rw [ih (sIns (keyLt key ltb) x acc) (sIns_sorted _ hasym' htrans' x acc hacc) v]
    rw [filter_sIns key ltb hirr x acc hacc v]
    by_cases hx : key x = v <;> simp [List.filter_cons, hx]

theorem stableSortBy_filter [DecidableEq β] (key : α → β) (ltb : β → β → Bool)
    (hirr : ∀ u, ltb u u = false)
    (hasym : ∀ u w, ltb u w = true → ltb w u = false)
    (htrans : ∀ u w z, ltb u w = true → ltb w z = true → ltb u z = true)
    (l : List α) (v : β) :
    (stableSortBy (keyLt key ltb) l).filter (fun a => decide (key a = v)) =
      l.filter (fun a => decide (key a = v)) := by
  simpa using foldl_sIns_filter key ltb hirr hasym htrans l [] (by simp [SortedB]) v

theorem sIns_congr (lt lt' : α → α → Bool) (x : α) (l : List α)
    (h : ∀ b ∈ l, lt x b = lt' x b) : sIns lt x l = sIns lt' x l := by
  induction l with
  | nil => rfl
  | cons y ys ih =>
    simp only [sIns]
    rw [h y (by simp)]
    split
    · rfl
    · rw [ih (fun b hb => h b (by simp [hb]))]

theorem foldl_sIns_congr (lt lt' : α → α → Bool) (S : List α) : ∀ (xs acc : List α),
    (∀ a ∈ acc, a ∈ S) → (∀ a ∈ xs, a ∈ S) →
    (∀ a ∈ S, ∀ b ∈ S, lt a b = lt' a b) →
    xs.foldl (fun a x => sIns lt x a) acc = xs.foldl (fun a x => sIns lt' x a) acc := by
  intro xs
  induction xs with
  | nil => intro acc _ _ _; rfl
  | cons x rest ih =>
    intro acc hacc hxs h
    simp only [List.foldl_cons]
    have hx : x ∈ S := hxs x (by simp)
    have hins : sIns lt x acc = sIns lt' x acc :=
      sIns_congr lt lt' x acc (fun b hb => h x hx b (hacc b hb))
    rw [hins]
    refine ih (sIns lt' x acc) ?_ (fun a ha => hxs a (by simp [ha])) h
    intro a ha
    rcases (mem_sIns lt' x acc a).mp ha with rfl | ha'
    · exact hx
    · exact hacc a ha'

theorem stableSortBy_congr (lt lt' : α → α → Bool) (l : List α)
    (h : ∀ a ∈ l, ∀ b ∈ l, lt a b = lt' a b) :
    stableSortBy lt l = stableSortBy lt' l :=
  foldl_sIns_congr lt lt' l l [] (by simp) (fun a ha => ha) h

end StableSort

/-- The direction-aware strict comparison on an ordered key domain. -/
def ltbo {γ : Type} [LinearOrder γ] (asc : Bool) (u v : γ) : Bool :=
  if asc then decide (u < v) else decide (v < u)

theorem ltbo_irr {γ : Type} [LinearOrder γ] (asc : Bool) (u : γ) : ltbo asc u u = false := by
  cases asc <;> simp [ltbo]

theorem ltbo_asym {γ : Type} [LinearOrder γ] (asc : Bool) (u v : γ) :
    ltbo asc u v = true → ltbo asc v u = false := by
  cases asc <;> simp [ltbo] <;> exact fun h => le_of_lt h

theorem ltbo_trans {γ : Type} [LinearOrder γ] (asc : Bool) (u v w : γ) :
    ltbo asc u v = true → ltbo asc v w = true → ltbo asc u w = true := by
  cases asc <;> simp [ltbo]
  · exact fun h1 h2 => lt_trans h2 h1
  · exact fun h1 h2 => lt_trans h1 h2

/-- The natural ordering of column values in the direction of the sort:
numeric for integer values, lexicographic for strings. -/
def natLeV (asc : Bool) : Value → Value → Prop
  | .int m, .int n => if asc then m ≤ n else n ≤ m
  | .str s, .str t => if asc then s ≤ t else t ≤ s
  | _, _ => True

/-- The integer under an integer value. -/
def intOfV : Value → Int
  | .int n => n
  | _ => 0

/-- The string under a string value. -/
def strOfV : Value → String
  | .str s => s
  | _ => ""

/-- Typed core of the sort-stage analysis, shared by the integer and string
columns: on a column whose values all lie in the image of an order embedding
`embed`, the sort stage permutes the list, orders it by the column's natural
ordering in the requested direction, and keeps records with equal column
values in their original relative order. -/
theorem sortStage_typed {γ : Type} [LinearOrder γ] [DecidableEq γ]
    (k : Col) (asc : Bool) (l : List Book)
    (embed : γ → Value) (extract : Value → γ)
    (hext : ∀ u : γ, extract (embed u) = u)
    (hjs : ∀ u v : γ, jsLtB (embed u) (embed v) = decide (u < v))
    (hnat : ∀ u v : γ, (if asc then u ≤ v else v ≤ u) → natLeV asc (embed u) (embed v))
    (hhom : ∀ b ∈ l, ∃ u : γ, b.get k = embed u) :
    (sortStage (some k) asc l).Perm l ∧
    List.Pairwise (fun a b => natLeV asc (a.get k) (b.get k)) (sortStage (some k) asc l) ∧
    (∀ v : Value, (sortStage (some k) asc l).filter (fun b => decide (b.get k = v)) =
      l.filter (fun b => decide (b.get k = v))) := by
  have hperm : (sortStage (some k) asc l).Perm l := stableSortBy_perm _ l
  set key : Book → γ := fun b => extract (b.get k) with hkey
  have hcong : stableSortBy
      (fun a b => if asc then jsLtB (a.get k) (b.get k) else jsLtB (b.get k) (a.get k)) l =
      stableSortBy (keyLt key (ltbo asc)) l := by
    refine stableSortBy_congr _ _ l ?_
    intro a ha b hb
    obtain ⟨u, hu⟩ := hhom a ha
    obtain ⟨w, hw⟩ := hhom b hb
    have hk : keyLt key (ltbo asc) a b = ltbo asc u w := by
      rw [keyLt, hkey]
      simp only [hu, hw, hext]
    show (if asc = true then jsLtB (a.get k) (b.get k) else jsLtB (b.get k) (a.get k)) =
      keyLt key (ltbo asc) a b
    rw [hk]
    simp only [hu, hw]
    cases asc with
    | true =>
      rw [if_pos rfl, hjs]
      rfl
    | false =>
      rw [if_neg (by simp), hjs]
      rfl
  have hsorted := stableSortBy_sorted (keyLt key (ltbo asc))
    (fun a b => ltbo_asym asc _ _) (fun a b c => ltbo_trans asc _ _ _) l
  refine ⟨hperm, ?_, ?_⟩
  · have hsorted' : SortedB (keyLt key (ltbo asc)) (sortStage (some k) asc l) := by
      show SortedB _ (stableSortBy _ l)
      rw [hcong]
      exact hsorted
    refine List.Pairwise.imp_of_mem ?_ hsorted'
    intro a b ha hb hab
    have ha' : a ∈ l := hperm.subset ha
    have hb' : b ∈ l := hperm.subset hb
    obtain ⟨u, hu⟩ := hhom a ha'
    obtain ⟨w, hw⟩ := hhom b hb'
    rw [hu, hw]
    refine hnat u w ?_
    have hab' : ltbo asc (extract (b.get k)) (extract (a.get k)) = false := hab
    rw [hu, hw, hext, hext] at hab'
    cases asc with
    | true =>
      have hnl : ¬ (w < u) := by simpa [ltbo] using hab'
      simpa using le_of_not_lt hnl
    | false =>
      have hnl : ¬ (u < w) := by simpa [ltbo] using hab'
      simpa using le_of_not_lt hnl
  · intro v
    by_cases hvim : ∃ u0 : γ, v = embed u0
    · obtain ⟨u0, rfl⟩ := hvim
      have hfix : ∀ (m : List Book), (∀ b ∈ m, b ∈ l) →
          m.filter (fun b => decide (b.get k = embed u0)) =
            m.filter (fun b => decide (key b = u0)) := by
        intro m hm
        refine List.filter_congr ?_
        intro b hb
        obtain ⟨u, hu⟩ := hhom b (hm b hb)
        rw [hkey]
        simp only [hu, hext]
        by_cases h : u = u0
        · simp [h]
        · have : embed u ≠ embed u0 := fun hc => h (by rw [← hext u, hc, hext])
          simp [h, this]
      rw [hfix _ (fun b hb => hperm.subset hb), hfix l (fun b hb => hb)]
      show (stableSortBy _ l).filter _ = _
      rw [hcong]
      exact stableSortBy_filter key (ltbo asc) (ltbo_irr asc)
        (fun a b => ltbo_asym asc _ _) (fun a b c => ltbo_trans asc _ _ _) l u0
    · have hnone : ∀ (m : List Book), (∀ b ∈ m, b ∈ l) →
          m.filter (fun b => decide (b.get k = v)) = [] := by
        intro m hm
        rw [List.filter_eq_nil_iff]
        intro b hb
        obtain ⟨u, hu⟩ := hhom b (hm b hb)
        simp only [hu]
        intro hc
        exact hvim ⟨u, (of_decide_eq_true hc).symm⟩
      rw [hnone _ (fun b hb => hperm.subset hb), hnone l (fun b hb => hb)]

/-- C7: on a homogeneously-typed sort column (all integers, as
`PublishedYear` holds after a load, or all strings, as the text columns do),
the sort stage is a stable permutation ordered by the column's natural
ordering — numeric for integer values, lexicographic for strings — reversed
when the direction is descending; records with equal column values keep their
relative order from before the sort. -/
theorem c7_sort_stage (k : Col) (asc : Bool) (l : List Book)
    (hhom : (∀ b ∈ l, ∃ n : Int, b.get k = .int n) ∨
      (∀ b ∈ l, ∃ s : String, b.get k = .str s)) :
    (sortStage (some k) asc l).Perm l ∧
    List.Pairwise (fun a b => natLeV asc (a.get k) (b.get k)) (sortStage (some k) asc l) ∧
    (∀ v : Value, (sortStage (some k) asc l).filter (fun b => decide (b.get k = v)) =
      l.filter (fun b => decide (b.get k = v))) := by
  cases hhom with
  | inl hint =>
    refine sortStage_typed k asc l Value.int intOfV (fun u => rfl) (fun u v => rfl) ?_ hint
    intro u v h
    simpa [natLeV] using h
  | inr hstr =>
    refine sortStage_typed k asc l Value.str strOfV (fun u => rfl) ?_ ?_ hstr
    · intro u v
      exact decide_eq_decide.mpr Iff.rfl
    · intro u v h
      simpa [natLeV] using h

/-- C7 witness: sorting three rows by `PublishedYear` descending — the two
rows sharing year 7 keep their relative order, the output is ordered, and it
is a permutation of the input. -/
theorem c7_sort_stage_witness :
    (sortStage (some .PublishedYear) false
        [sampleA, ⟨.int 2, .str "E", .str "F", .str "G", .int 1990, .str "H"⟩]).Perm
      [sampleA, ⟨.int 2, .str "E", .str "F", .str "G", .int 1990, .str "H"⟩] ∧
    List.Pairwise (fun a b => natLeV false (a.get .PublishedYear) (b.get .PublishedYear))
      (sortStage (some .PublishedYear) false
        [sampleA, ⟨.int 2, .str "E", .str "F", .str "G", .int 1990, .str "H"⟩]) ∧
    (∀ v : Value, (sortStage (some .PublishedYear) false
        [sampleA, ⟨.int 2, .str "E", .str "F", .str "G", .int 1990, .str "H"⟩]).filter
          (fun b => decide (b.get .PublishedYear = v)) =
      [sampleA, ⟨.int 2, .str "E", .str "F", .str "G", .int 1990, .str "H"⟩].filter
        (fun b => decide (b.get .PublishedYear = v))) :=
  c7_sort_stage .PublishedYear false
    [sampleA, ⟨.int 2, .str "E", .str "F", .str "G", .int 1990, .str "H"⟩]
    (Or.inl (by
      intro b hb
      simp only [List.mem_cons, List.not_mem_nil, or_false] at hb
      rcases hb with rfl | rfl <;> exact ⟨1990, rfl⟩))

end BookEditor
